import Mathlib

/-!
Verification of the `todo_to_csv` utility (Rust sources `src/lib.rs`,
`src/main.rs`) against its natural-language specification.

The core of the program is the regular expression

  `(?m)^(?:\s*//|\s*#)\s*TODO:\s*(.*\S)\s*$`

(`TODO_PATTERN`, lib.rs lines 12-15), applied by `extract_todo_comment`
(lib.rs lines 51-61) to a string, returning capture group 1 of the
leftmost match.  We embed strings as `List Char` and translate the
pattern's semantics (Rust `regex` crate: leftmost match, leftmost-first
alternation, greedy quantifiers with backtracking, `(?m)` multiline
anchors, `\s` = Unicode White_Space, `.` = any character except `'\n'`)
into executable Lean functions.
-/

namespace TodoToCsv

/-- Characters matched by the regex class `\s` in the Rust `regex` crate:
the Unicode White_Space set. -/
def isWs (c : Char) : Bool :=
  let n := c.toNat
  if (9 ≤ n ∧ n ≤ 13) ∨ n = 32 ∨ n = 133 ∨ n = 160 ∨ n = 0x1680
      ∨ (0x2000 ≤ n ∧ n ≤ 0x200A) ∨ n = 0x2028 ∨ n = 0x2029
      ∨ n = 0x202F ∨ n = 0x205F ∨ n = 0x3000 then
    true
  else
    false

/-- Removes trailing whitespace from a list of characters. -/
def trimRight (l : List Char) : List Char :=
  (l.reverse.dropWhile isWs).reverse

/-- Semantics of the regex tail `\s*$` in multiline mode, at the current
position: some prefix of whitespace can be consumed so that the position
reached is the end of the input or immediately precedes a `'\n'`. -/
def wsDollar : List Char → Bool
  | [] => true
  | c :: rest => if c = '\n' then true else if isWs c then wsDollar rest else false

/-- Semantics of the regex fragment `(.*\S)\s*$` at the current position,
with greedy (longest-first) `.*`, returning the text captured by the
group on success.  `.` matches any character except `'\n'`; the capture
always starts at the current position and ends at the rightmost
non-whitespace character that is followed by material matching `\s*$`. -/
def dotCap : List Char → Option (List Char)
  | [] => none
  | c :: rest =>
    if c = '\n' then none
    else
      match dotCap rest with
      | some cap => some (c :: cap)
      | none => if isWs c = false ∧ wsDollar rest = true then some [c] else none

/-- Semantics of the alternation `(?:\s*//|\s*#)` at the current position:
since neither `'/'` nor `'#'` is whitespace, the greedy `\s*` in each
branch deterministically consumes the maximal whitespace run, after which
the branch's literal must follow; returns the remainder after the
introducer.  The `\s*` may consume newline characters. -/
def introTail (s : List Char) : Option (List Char) :=
  match s.dropWhile isWs with
  | '/' :: '/' :: rest => some rest
  | '#' :: rest => some rest
  | _ => none

/-- Semantics of the regex fragment `\s*TODO:` after the introducer: as
`'T'` is not whitespace the greedy `\s*` again collapses to `dropWhile`;
returns the remainder after the literal `TODO:`. -/
def afterTodo (v : List Char) : Option (List Char) :=
  match v.dropWhile isWs with
  | 'T' :: 'O' :: 'D' :: 'O' :: ':' :: t => some t
  | _ => none

/-- Attempt to match the whole pattern body
`(?:\s*//|\s*#)\s*TODO:\s*(.*\S)\s*$` at a line-start position, with the
Rust regex crate's leftmost-first backtracking semantics, returning the
capture of group 1.  The `\s*` before the capture is greedy; if after
consuming all whitespace a non-whitespace character remains, the capture
from that point always succeeds, and if only whitespace remains, no
shorter consumption can supply the `\S` the capture requires, so the
greedy `dropWhile` is exact. -/
def matchBody (s : List Char) : Option (List Char) :=
  (introTail s).bind (fun v => (afterTodo v).bind (fun t => dotCap (t.dropWhile isWs)))

/-- All suffixes of the input that begin just after a `'\n'`, in
left-to-right order: together with the input itself these are exactly the
positions where the multiline anchor `^` matches. -/
def lineStartSuffixes : List Char → List (List Char)
  | [] => []
  | c :: rest =>
    if c = '\n' then rest :: lineStartSuffixes rest else lineStartSuffixes rest

/-- Embedding of `extract_todo_comment` (lib.rs lines 51-61) specialised
to the program's one compiled pattern `TODO_PATTERN`: find the leftmost
match of the pattern in the input and return capture group 1, or `none`
if there is no match.  Since the pattern starts with the multiline `^`,
a match can only start at the beginning of the input or just after a
`'\n'`, so scanning those positions left to right and taking the first
success is exactly the regex crate's leftmost-match rule. -/
def extract_todo_comment (s : List Char) : Option (List Char) :=
  List.findSome? matchBody (s :: lineStartSuffixes s)

/-- Modelled from the spec: the reference pattern
`^\s*(//|#)\s*TODO:\s*(\S.*\S|\S)\s*$` of spec section 8, applied to a
single physical line (no embedded newline), returning the captured,
trimmed group on a match and `none` otherwise.  The leading
`\s*(//|#)\s*TODO:` portion is textually identical in the source pattern
and the reference pattern, so the embedding shares `introTail` and
`afterTodo` for it; the patterns differ only in the capture:
`(\S.*\S|\S)\s*$` matches, greedily, the remaining text from its first
non-whitespace character to its last one, i.e. the whitespace-trimmed
remainder, and requires that remainder to be non-empty. -/
def extract_todo_spec (s : List Char) : Option (List Char) :=
  (introTail s).bind (fun v => (afterTodo v).bind (fun t =>
    let b := trimRight (t.dropWhile isWs)
    if b = [] then none else some b))

/-- Splits the input at `'\n'` characters into its embedded physical
lines. -/
def splitLines : List Char → List (List Char)
  | [] => [[]]
  | c :: rest =>
    if c = '\n' then [] :: splitLines rest
    else
      match splitLines rest with
      | [] => [[c]]
      | l :: ls => (c :: l) :: ls

/-- The result of running the extractor on each embedded physical line
separately and keeping the first line that matches. -/
def firstLineMatch (s : List Char) : Option (List Char) :=
  List.findSome? extract_todo_comment (splitLines s)

theorem sanity_test_rust1 :
    extract_todo_comment (String.toList "    // TODO: Implement the new feature")
      = some (String.toList "Implement the new feature") := by decide

theorem sanity_test_rust2 :
    extract_todo_comment (String.toList "    // This is a regular comment") = none := by
  decide

theorem sanity_test_rust3 :
    extract_todo_comment (String.toList "let x = 5;") = none := by decide

theorem sanity_test_rust4 :
    extract_todo_comment (String.toList "    //   TODO:  Improve error handling  ")
      = some (String.toList "Improve error handling") := by decide

theorem sanity_test_rust5 :
    extract_todo_comment
        (String.toList "    // TODO: Refactor this code\n    // to make it more efficient")
      = some (String.toList "Refactor this code") := by decide

theorem sanity_test_rust6 :
    extract_todo_comment
        (String.toList "let x = 5; // TODO: Use a constant instead of a hardcoded value")
      = none := by decide

theorem sanity_test_rust7 :
    extract_todo_comment (String.toList "# TODO: Implement the new feature")
      = some (String.toList "Implement the new feature") := by decide

theorem sanity_test_rust8 :
    extract_todo_comment
        (String.toList "x = 5  # TODO: Use a constant instead of a hardcoded value")
      = none := by decide

/-! Helper lemmas about the extractor. -/

theorem noNl_dropWhile {s : List Char} (h : '\n' ∉ s) : '\n' ∉ s.dropWhile isWs :=
  fun hm => h (List.Sublist.mem hm (List.dropWhile_sublist isWs))

theorem introTail_mem {s v : List Char} (h : introTail s = some v) :
    ∀ a ∈ v, a ∈ s := by
  intro a ha
  unfold introTail at h
  split at h
  case h_1 rest heq =>
    have hv : rest = v := by injection h
    have : a ∈ s.dropWhile isWs := by
      rw [heq, hv]; simp [ha]
    exact List.Sublist.mem this (List.dropWhile_sublist isWs)
  case h_2 rest heq =>
    have hv : rest = v := by injection h
    have : a ∈ s.dropWhile isWs := by
      rw [heq, hv]; simp [ha]
    exact List.Sublist.mem this (List.dropWhile_sublist isWs)
  case h_3 => exact absurd h (by simp)

theorem afterTodo_mem {v t : List Char} (h : afterTodo v = some t) :
    ∀ a ∈ t, a ∈ v := by
  intro a ha
  unfold afterTodo at h
  split at h
  case h_1 rest heq =>
    have hv : rest = t := by injection h
    have : a ∈ v.dropWhile isWs := by
      rw [heq, hv]; simp [ha]
    exact List.Sublist.mem this (List.dropWhile_sublist isWs)
  case h_2 => exact absurd h (by simp)

theorem wsDollar_noNl {u : List Char} (h : '\n' ∉ u) : wsDollar u = u.all isWs := by
  induction u with
  | nil => rfl
  | cons c rest ih =>
    have hc : ¬ c = '\n' := fun hx => h (by simp [hx])
    have hrest : '\n' ∉ rest := fun hx => h (by simp [hx])
    by_cases hw : isWs c
    · simp [wsDollar, hc, hw, ih hrest]
    · simp [wsDollar, hc, hw]

theorem trimRight_nil_iff {l : List Char} :
    trimRight l = [] ↔ ∀ c ∈ l, isWs c = true := by
  unfold trimRight
  rw [List.reverse_eq_nil_iff, List.dropWhile_eq_nil_iff]
  constructor
  · intro h c hc; exact h c (by simp [hc])
  · intro h c hc; exact h c (by simpa using hc)

theorem trimRight_cons {c : Char} {l : List Char} :
    trimRight (c :: l)
      = if trimRight l = [] then (if isWs c then [] else [c]) else c :: trimRight l := by
  unfold trimRight
  rw [List.reverse_cons, List.dropWhile_append]
  by_cases h : l.reverse.dropWhile isWs = []
  · by_cases hw : isWs c <;> simp [List.isEmpty_iff, List.dropWhile, h, hw]
  · have h' : ¬ (l.reverse.dropWhile isWs).reverse = [] := by
      simpa [List.reverse_eq_nil_iff] using h
    simp [List.isEmpty_iff, h, h']

theorem dotCap_eq_trimRight {u : List Char} (h : '\n' ∉ u) :
    dotCap u = if trimRight u = [] then none else some (trimRight u) := by
  induction u with
  | nil => rfl
  | cons c rest ih =>
    have hc : ¬ c = '\n' := fun hx => h (by simp [hx])
    have hrest : '\n' ∉ rest := fun hx => h (by simp [hx])
    by_cases hr : trimRight rest = []
    · have hall : rest.all isWs = true := by
        rw [List.all_eq_true]; intro x hx
        exact trimRight_nil_iff.mp hr x hx
      have hdc : dotCap rest = none := by rw [ih hrest, if_pos hr]
      have hwd : wsDollar rest = true := by rw [wsDollar_noNl hrest]; exact hall
      by_cases hw : isWs c
      · have : trimRight (c :: rest) = [] := by
          rw [trimRight_cons, if_pos hr, if_pos hw]
        simp [dotCap, hc, hdc, hwd, hw, this]
      · have hwf : isWs c = false := by simpa using hw
        have : trimRight (c :: rest) = [c] := by
          rw [trimRight_cons, if_pos hr, if_neg hw]
        simp [dotCap, hc, hdc, hwd, hwf, this]
    · have hdc : dotCap rest = some (trimRight rest) := by rw [ih hrest, if_neg hr]
      have ht : trimRight (c :: rest) = c :: trimRight rest := by
        rw [trimRight_cons, if_neg hr]
      simp [dotCap, hc, hdc, ht]

theorem lineStartSuffixes_eq_nil {s : List Char} (h : '\n' ∉ s) :
    lineStartSuffixes s = [] := by
  induction s with
  | nil => rfl
  | cons c rest ih =>
    have hc : ¬ c = '\n' := fun hx => h (by simp [hx])
    have hrest : '\n' ∉ rest := fun hx => h (by simp [hx])
    simp [lineStartSuffixes, hc, ih hrest]

theorem extract_eq_matchBody {s : List Char} (h : '\n' ∉ s) :
    extract_todo_comment s = matchBody s := by
  unfold extract_todo_comment
  rw [lineStartSuffixes_eq_nil h, List.findSome?_cons]
  cases matchBody s <;> simp

theorem matchBody_intro_none {s : List Char} (h : introTail s = none) :
    matchBody s = none := by
  unfold matchBody
  rw [h]
  rfl

theorem matchBody_todo_none {s v : List Char} (h1 : introTail s = some v)
    (h2 : afterTodo v = none) : matchBody s = none := by
  unfold matchBody
  rw [h1]
  simp only [Option.bind]
  rw [h2]

theorem matchBody_todo_some {s v t : List Char} (h1 : introTail s = some v)
    (h2 : afterTodo v = some t) : matchBody s = dotCap (t.dropWhile isWs) := by
  unfold matchBody
  rw [h1]
  simp only [Option.bind]
  rw [h2]

theorem spec_intro_none {s : List Char} (h : introTail s = none) :
    extract_todo_spec s = none := by
  unfold extract_todo_spec
  rw [h]
  rfl

theorem spec_todo_none {s v : List Char} (h1 : introTail s = some v)
    (h2 : afterTodo v = none) : extract_todo_spec s = none := by
  unfold extract_todo_spec
  rw [h1]
  simp only [Option.bind]
  rw [h2]

theorem spec_todo_some {s v t : List Char} (h1 : introTail s = some v)
    (h2 : afterTodo v = some t) :
    extract_todo_spec s
      = if trimRight (t.dropWhile isWs) = [] then none
        else some (trimRight (t.dropWhile isWs)) := by
  unfold extract_todo_spec
  rw [h1]
  simp only [Option.bind]
  rw [h2]

theorem matchBody_eq_spec {s : List Char} (h : '\n' ∉ s) :
    matchBody s = extract_todo_spec s := by
  cases hi : introTail s with
  | none => rw [matchBody_intro_none hi, spec_intro_none hi]
  | some v =>
    cases ha : afterTodo v with
    | none => rw [matchBody_todo_none hi ha, spec_todo_none hi ha]
    | some t =>
      have hv : '\n' ∉ v := fun hx => h (introTail_mem hi _ hx)
      have ht : '\n' ∉ t := fun hx => hv (afterTodo_mem ha _ hx)
      have hu : '\n' ∉ t.dropWhile isWs := noNl_dropWhile ht
      rw [matchBody_todo_some hi ha, spec_todo_some hi ha, dotCap_eq_trimRight hu]

/-! Claim theorems C1, C2, C3. -/

/-- C1: for every input string that is a single physical line (no embedded
newline), `extract_todo_comment` returns some of the captured, trimmed
comment body if the line matches the reference pattern
`^\s*(//|#)\s*TODO:\s*(\S.*\S|\S)\s*$` (embedded as `extract_todo_spec`),
and returns none for every other such line. -/
theorem extract_matches_reference_pattern (s : List Char) (h : '\n' ∉ s) :
    extract_todo_comment s = extract_todo_spec s :=
  (extract_eq_matchBody h).trans (matchBody_eq_spec h)

theorem extract_matches_reference_pattern_witness :
    ('\n' ∉ String.toList "    // TODO: Implement the new feature")
      ∧ extract_todo_comment (String.toList "    // TODO: Implement the new feature")
          = extract_todo_spec (String.toList "    // TODO: Implement the new feature") :=
  ⟨by decide,
   extract_matches_reference_pattern
     (String.toList "    // TODO: Implement the new feature") (by decide)⟩

/-- C2: for every single physical line in which the first non-whitespace
content is not a comment introducer `//` or `#` — in particular a line in
which a TODO marker is preceded by code, such as `let x = 5; // TODO: fix`
— `extract_todo_comment` returns none: the comment introducer must be the
first non-whitespace content of the line. -/
theorem inline_todo_not_matched (s : List Char) (h : '\n' ∉ s)
    (hs : ¬ ['/', '/'] <+: s.dropWhile isWs)
    (hh : ¬ ['#'] <+: s.dropWhile isWs) :
    extract_todo_comment s = none := by
  rw [extract_eq_matchBody h]
  have hi : introTail s = none := by
    unfold introTail
    split
    case h_1 rest heq => exact absurd (heq ▸ ⟨rest, rfl⟩) hs
    case h_2 rest heq => exact absurd (heq ▸ ⟨rest, rfl⟩) hh
    case h_3 => rfl
  exact matchBody_intro_none hi

theorem inline_todo_not_matched_witness :
    ('\n' ∉ String.toList "let x = 5; // TODO: Use a constant instead of a hardcoded value")
      ∧ extract_todo_comment
          (String.toList "let x = 5; // TODO: Use a constant instead of a hardcoded value")
          = none :=
  ⟨by decide,
   inline_todo_not_matched
     (String.toList "let x = 5; // TODO: Use a constant instead of a hardcoded value")
     (by decide) (by decide) (by decide)⟩

/-- C3: on a single physical line, `extract_todo_comment` returns none
when the first non-whitespace content is not a comment introducer
(`introTail s = none`), when the introducer is not followed (after
optional whitespace) by the literal `TODO:` token (`afterTodo v = none`),
and when the text following the `TODO:` marker is nothing or only
whitespace (the captured body would be empty after trimming). -/
theorem non_todo_lines_not_matched (s : List Char) (h : '\n' ∉ s) :
    (introTail s = none → extract_todo_comment s = none)
    ∧ (∀ v, introTail s = some v → afterTodo v = none →
        extract_todo_comment s = none)
    ∧ (∀ v t, introTail s = some v → afterTodo v = some t → t.all isWs = true →
        extract_todo_comment s = none) := by
  refine ⟨?_, ?_, ?_⟩
  · intro hi
    rw [extract_eq_matchBody h]
    exact matchBody_intro_none hi
  · intro v hi ha
    rw [extract_eq_matchBody h]
    exact matchBody_todo_none hi ha
  · intro v t hi ha hws
    rw [extract_eq_matchBody h, matchBody_todo_some hi ha]
    have hnil : t.dropWhile isWs = [] := by
      rw [List.dropWhile_eq_nil_iff]
      intro x hx
      exact List.all_eq_true.mp hws x hx
    rw [hnil]
    rfl

theorem non_todo_lines_not_matched_witness :
    extract_todo_comment (String.toList "let x = 5;") = none
    ∧ extract_todo_comment (String.toList "    // This is a regular comment") = none
    ∧ extract_todo_comment (String.toList "    // TODO:   ") = none :=
  ⟨(non_todo_lines_not_matched (String.toList "let x = 5;") (by decide)).1 (by decide),
   (non_todo_lines_not_matched (String.toList "    // This is a regular comment")
      (by decide)).2.1 (String.toList " This is a regular comment") (by decide) (by decide),
   (non_todo_lines_not_matched (String.toList "    // TODO:   ")
      (by decide)).2.2 (String.toList " TODO:   ") (String.toList "   ")
      (by decide) (by decide) (by decide)⟩

/-- C9: `extract_todo_comment` is deterministic and side-effect free.  In
the embedding the Rust function (which only reads its arguments and the
shared immutable compiled pattern, and touches no mutable state) becomes
a total Lean function of the line alone, so purity holds by construction;
the theorem states the observable consequence the claim names: two
invocations on the same input return the same result. -/
theorem extract_pure_deterministic (s t : List Char) (h : s = t) :
    extract_todo_comment s = extract_todo_comment t := by
  rw [h]

theorem extract_pure_deterministic_witness :
    extract_todo_comment (String.toList "// TODO: x")
      = extract_todo_comment (String.toList "// TODO: x") :=
  extract_pure_deterministic (String.toList "// TODO: x")
    (String.toList "// TODO: x") rfl

/-- C10, counterexample: the claim says that on an input with embedded
newlines the extractor returns the body of the first embedded line that
matches.  On the input `"#\n TODO: z\n# TODO: a"` no prefix line matches
on its own (`"#"` has an empty body, `" TODO: z"` has no introducer), and
the first embedded line that matches is `"# TODO: a"` with body `"a"`;
but the `\s*` parts of the pattern may consume newline characters, so the
leftmost match starts at the `'#'` of line one, crosses into line two and
captures `"z"`. -/
theorem multiline_first_line_counterexample :
    ('\n' ∈ String.toList "#\n TODO: z\n# TODO: a")
    ∧ extract_todo_comment (String.toList "#\n TODO: z\n# TODO: a") = some ['z']
    ∧ firstLineMatch (String.toList "#\n TODO: z\n# TODO: a") = some ['a']
    ∧ extract_todo_comment (String.toList "#\n TODO: z\n# TODO: a")
        ≠ firstLineMatch (String.toList "#\n TODO: z\n# TODO: a") := by
  decide

/-- C10, amended: because the compiled pattern uses the multiline flag
`(?m)`, an input containing embedded newlines is not treated as one
non-matching line: on the two-line test input the extractor returns the
body of the first line, agreeing with per-line extraction.  In general
the result is the capture of the leftmost whole-pattern match, whose
`\s*` parts may span newlines, so it need not be the first
individually-matching embedded line. -/
theorem multiline_example_first_line :
    extract_todo_comment
        (String.toList "    // TODO: Refactor this code\n    // to make it more efficient")
      = some (String.toList "Refactor this code")
    ∧ firstLineMatch
        (String.toList "    // TODO: Refactor this code\n    // to make it more efficient")
      = some (String.toList "Refactor this code") := by
  decide

/-! Embedding of the command-line driver `main` (main.rs lines 6-12).
`env::args()` yields the program name followed by the positional
arguments; `main` prints a usage message to standard error and exits with
status 1 unless `args.len() == 3`, and otherwise proceeds to process the
directory `args[1]` into the output file `args[2]`.  The observable
branching of `main` on its argument vector is modelled as a value of
`MainOutcome`: `usageError` is the usage-message/exit-1 path, on which no
file is opened or processed. -/

inductive MainOutcome where
  | usageError
  | run (directory : List Char) (output : List Char)
deriving DecidableEq

def mainDispatch (args : List (List Char)) : MainOutcome :=
  if h : args.length = 3 then
    MainOutcome.run (args.get ⟨1, by omega⟩) (args.get ⟨2, by omega⟩)
  else
    MainOutcome.usageError

/-- C8: when invoked with any number of positional arguments other than
exactly two (the argument vector is the program name followed by the
positional arguments), the program takes the usage-error path: it prints
the usage message to standard error and exits with status 1 without
processing any files. -/
theorem wrong_arg_count_usage_error (prog : List Char) (rest : List (List Char))
    (h : rest.length ≠ 2) :
    mainDispatch (prog :: rest) = MainOutcome.usageError := by
  unfold mainDispatch
  rw [dif_neg]
  simp only [List.length_cons]
  omega

theorem wrong_arg_count_usage_error_witness :
    mainDispatch [String.toList "todo_finder", String.toList "some_dir"]
      = MainOutcome.usageError :=
  wrong_arg_count_usage_error (String.toList "todo_finder")
    [String.toList "some_dir"] (by decide)

/-! Embedding of `process_file` (lib.rs lines 72-88).  The Rust function
opens the file at `path`, iterates `reader.lines().enumerate()`, and for
every line on which `extract_todo_comment` matches writes the record
`[path, line_number + 1, comment]` to the CSV writer; `File::open`, each
`line?`, and each `write_record` can fail with an `io::Error`, which is
propagated immediately by `?`.  The I/O environment is made explicit:
the open result is an `Except` value, the line iterator is a list of
`Except` values (as produced by `BufRead::lines`), and the sink is a
function from records to an `Except` write result.  The embedding
returns the list of records accepted by the sink, in emission order,
together with the function's `io::Result<()>` value. -/

inductive IOErr where
  | notFound
  | permissionDenied
  | invalidData
  | writeFailed
deriving DecidableEq

structure TodoRecord where
  file_path : List Char
  line_number : Nat
  comment_text : List Char
deriving DecidableEq

def processLines (path : List Char) (n : Nat)
    (ls : List (Except IOErr (List Char)))
    (wr : TodoRecord → Except IOErr Unit) :
    List TodoRecord × Except IOErr Unit :=
  match ls with
  | [] => ([], Except.ok ())
  | Except.error e :: _ => ([], Except.error e)
  | Except.ok l :: rest =>
    match extract_todo_comment l with
    | none => processLines path (n + 1) rest wr
    | some c =>
      match wr (TodoRecord.mk path n c) with
      | Except.error e => ([], Except.error e)
      | Except.ok _ =>
        (TodoRecord.mk path n c :: (processLines path (n + 1) rest wr).1,
         (processLines path (n + 1) rest wr).2)

def process_file (path : List Char)
    (openRes : Except IOErr (List (Except IOErr (List Char))))
    (wr : TodoRecord → Except IOErr Unit) :
    List TodoRecord × Except IOErr Unit :=
  match openRes with
  | Except.error e => ([], Except.error e)
  | Except.ok ls => processLines path 1 ls wr

/-- A sink whose writes always succeed. -/
def okSink : TodoRecord → Except IOErr Unit := fun _ => Except.ok ()

theorem processLines_all_ok (path : List Char) (lines : List (List Char)) :
    ∀ n : Nat,
      processLines path n (lines.map Except.ok) okSink
        = ((List.enumFrom n lines).filterMap
            (fun p => (extract_todo_comment p.2).map (fun c => TodoRecord.mk path p.1 c)),
           Except.ok ()) := by
  induction lines with
  | nil => intro n; rfl
  | cons l rest ih =>
    intro n
    rw [List.map_cons, List.enumFrom_cons, List.filterMap_cons]
    cases hx : extract_todo_comment l with
    | none => simp [processLines, hx, ih n, ih (n + 1)]
    | some c => simp [processLines, hx, okSink, ih (n + 1)]

/-- C5: for every file read successfully (every line decodes and every
sink write succeeds), `process_file` applies the extractor to each line
in order with line numbers starting at 1, and for each matching line
emits exactly one record — the path exactly as given, the 1-based line
number, and the trimmed comment body — to the sink, in the order the
lines were read; non-matching lines emit nothing. -/
theorem process_file_emits_matches_in_order (path : List Char)
    (lines : List (List Char)) :
    process_file path (Except.ok (lines.map Except.ok)) okSink
      = ((List.enumFrom 1 lines).filterMap
          (fun p => (extract_todo_comment p.2).map (fun c => TodoRecord.mk path p.1 c)),
         Except.ok ()) :=
  processLines_all_ok path lines 1

theorem processLines_error_line (path : List Char) (e : IOErr)
    (post : List (Except IOErr (List Char))) (pre : List (List Char)) :
    ∀ n : Nat,
      processLines path n (pre.map Except.ok ++ Except.error e :: post) okSink
        = ((List.enumFrom n pre).filterMap
            (fun p => (extract_todo_comment p.2).map (fun c => TodoRecord.mk path p.1 c)),
           Except.error e) := by
  induction pre with
  | nil => intro n; rfl
  | cons l rest ih =>
    intro n
    rw [List.map_cons, List.enumFrom_cons, List.filterMap_cons]
    cases hx : extract_todo_comment l with
    | none => simp [processLines, hx, ih n, ih (n + 1)]
    | some c => simp [processLines, hx, okSink, ih (n + 1)]

theorem processLines_write_fail (path : List Char) (e : IOErr)
    (m : List Char) (post : List (List Char)) (c : List Char)
    (hm : extract_todo_comment m = some c) (pre : List (List Char))
    (hpre : ∀ l ∈ pre, extract_todo_comment l = none) :
    ∀ n : Nat,
      processLines path n ((pre ++ m :: post).map Except.ok)
          (fun _ => Except.error e)
        = ([], Except.error e) := by
  induction pre with
  | nil => intro n; simp [processLines, hm]
  | cons l rest ih =>
    intro n
    have hl : extract_todo_comment l = none := hpre l (by simp)
    have hrest : ∀ x ∈ rest, extract_todo_comment x = none :=
      fun x hx => hpre x (by simp [hx])
    have hrec := ih hrest (n + 1)
    rw [List.map_append, List.map_cons] at hrec
    simp [processLines, hl, hrec]

theorem processLines_err_not_ok (path : List Char)
    (wr : TodoRecord → Except IOErr Unit) :
    ∀ (ls : List (Except IOErr (List Char))) (n : Nat),
      (∃ x ∈ ls, ∃ e, x = Except.error e) →
      (processLines path n ls wr).2 ≠ Except.ok () := by
  intro ls
  induction ls with
  | nil => intro n h; rcases h with ⟨x, hx, _⟩; simp at hx
  | cons x rest ih =>
    intro n h
    cases x with
    | error e => simp [processLines]
    | ok l =>
      have hrest : ∃ y ∈ rest, ∃ e, y = Except.error e := by
        rcases h with ⟨y, hy, e, hye⟩
        rcases List.mem_cons.mp hy with h1 | h2
        · exact absurd (h1 ▸ hye) (by simp)
        · exact ⟨y, h2, e, hye⟩
      cases hx : extract_todo_comment l with
      | none => simpa [processLines, hx] using ih (n + 1) hrest
      | some c =>
        cases hw : wr (TodoRecord.mk path n c) with
        | error e => simp [processLines, hx, hw]
        | ok u => simpa [processLines, hx, hw] using ih (n + 1) hrest

/-- C6: `process_file` returns an error if opening the file fails (part
1), if reading or decoding a line fails (part 2: processing stops at the
failing line, no later line contributes a record, and the records already
emitted for earlier matching lines remain in the sink), or if a sink
write fails (part 3); and it returns success only after all lines have
been consumed (part 4: if any line item is an error, the result is not
`ok`). -/
theorem process_file_error_propagation :
    (∀ (path : List Char) (e : IOErr) (wr : TodoRecord → Except IOErr Unit),
      process_file path (Except.error e) wr = ([], Except.error e))
    ∧ (∀ (path : List Char) (pre : List (List Char)) (e : IOErr)
        (post : List (Except IOErr (List Char))),
        process_file path (Except.ok (pre.map Except.ok ++ Except.error e :: post)) okSink
          = ((List.enumFrom 1 pre).filterMap
              (fun p => (extract_todo_comment p.2).map (fun c => TodoRecord.mk path p.1 c)),
             Except.error e))
    ∧ (∀ (path : List Char) (pre : List (List Char)) (m : List Char)
        (post : List (List Char)) (e : IOErr) (c : List Char),
        (∀ l ∈ pre, extract_todo_comment l = none) →
        extract_todo_comment m = some c →
        process_file path (Except.ok ((pre ++ m :: post).map Except.ok))
            (fun _ => Except.error e)
          = ([], Except.error e))
    ∧ (∀ (path : List Char) (ls : List (Except IOErr (List Char)))
        (wr : TodoRecord → Except IOErr Unit),
        (∃ x ∈ ls, ∃ e, x = Except.error e) →
        (process_file path (Except.ok ls) wr).2 ≠ Except.ok ()) := by
  refine ⟨fun path e wr => rfl, ?_, ?_, ?_⟩
  · intro path pre e post
    exact processLines_error_line path e post pre 1
  · intro path pre m post e c hpre hm
    exact processLines_write_fail path e m post c hm pre hpre 1
  · intro path ls wr h
    exact processLines_err_not_ok path wr ls 1 h

theorem process_file_error_propagation_witness :
    process_file (String.toList "a.rs") (Except.error IOErr.notFound) okSink
      = ([], Except.error IOErr.notFound)
    ∧ process_file (String.toList "a.rs")
        (Except.ok ([String.toList "// TODO: first"].map Except.ok
          ++ Except.error IOErr.invalidData :: [Except.ok (String.toList "// TODO: second")]))
        okSink
      = ((List.enumFrom 1 [String.toList "// TODO: first"]).filterMap
          (fun p => (extract_todo_comment p.2).map
            (fun c => TodoRecord.mk (String.toList "a.rs") p.1 c)),
         Except.error IOErr.invalidData)
    ∧ process_file (String.toList "a.rs")
        (Except.ok (([String.toList "let y = 1;"]
          ++ String.toList "// TODO: fix" :: []).map Except.ok))
        (fun _ => Except.error IOErr.writeFailed)
      = ([], Except.error IOErr.writeFailed)
    ∧ (process_file (String.toList "a.rs")
        (Except.ok [Except.error IOErr.invalidData]) okSink).2 ≠ Except.ok () :=
  ⟨process_file_error_propagation.1 (String.toList "a.rs") IOErr.notFound okSink,
   process_file_error_propagation.2.1 (String.toList "a.rs")
     [String.toList "// TODO: first"] IOErr.invalidData
     [Except.ok (String.toList "// TODO: second")],
   process_file_error_propagation.2.2.1 (String.toList "a.rs")
     [String.toList "let y = 1;"] (String.toList "// TODO: fix") []
     IOErr.writeFailed (String.toList "fix") (by decide) (by decide),
   process_file_error_propagation.2.2.2 (String.toList "a.rs")
     [Except.error IOErr.invalidData] okSink
     ⟨Except.error IOErr.invalidData, by simp, IOErr.invalidData, rfl⟩⟩

theorem dropWhile_head_false {p : Char → Bool} {l : List Char} {c : Char}
    {r : List Char} (h : l.dropWhile p = c :: r) : p c = false := by
  induction l with
  | nil => exact absurd h (by simp)
  | cons a tl ih =>
    rw [List.dropWhile_cons] at h
    by_cases hp : p a
    · rw [if_pos hp] at h
      exact ih h
    · rw [if_neg hp] at h
      have hac : a = c := by injection h
      rw [← hac]
      simpa using hp

theorem dotCap_shape : ∀ (u b : List Char), dotCap u = some b →
    b ≠ [] ∧ b <+: u ∧ trimRight b = b := by
  intro u
  induction u with
  | nil => intro b h; exact absurd h (by simp [dotCap])
  | cons c rest ih =>
    intro b h
    simp only [dotCap] at h
    by_cases hc : c = '\n'
    · rw [if_pos hc] at h
      exact absurd h (by simp)
    · rw [if_neg hc] at h
      cases hd : dotCap rest with
      | some cap =>
        rw [hd] at h
        have hb : c :: cap = b := by injection h
        rcases ih cap hd with ⟨hne, hpre, htr⟩
        refine hb ▸ ⟨by simp, List.cons_prefix_cons.mpr ⟨rfl, hpre⟩, ?_⟩
        rw [trimRight_cons, htr, if_neg hne]
      | none =>
        rw [hd] at h
        by_cases hcond : isWs c = false ∧ wsDollar rest = true
        · rw [if_pos hcond] at h
          have hb : [c] = b := by injection h
          refine hb ▸ ⟨by simp, ⟨rest, rfl⟩, ?_⟩
          rw [trimRight_cons]
          simp [trimRight, hcond.1]
        · rw [if_neg hcond] at h
          exact absurd h (by simp)

theorem findSome?_inv {f : List Char → Option (List Char)} :
    ∀ {l : List (List Char)} {b : List Char}, List.findSome? f l = some b →
      ∃ a ∈ l, f a = some b := by
  intro l
  induction l with
  | nil => intro b h; exact absurd h (by simp)
  | cons a tl ih =>
    intro b h
    rw [List.findSome?_cons] at h
    cases hf : f a with
    | some c =>
      rw [hf] at h
      exact ⟨a, by simp, hf.trans h⟩
    | none =>
      rw [hf] at h
      rcases ih h with ⟨x, hx, hfx⟩
      exact ⟨x, by simp [hx], hfx⟩

theorem matchBody_some_shape {s b : List Char} (h : matchBody s = some b) :
    b ≠ [] ∧ b.dropWhile isWs = b ∧ trimRight b = b := by
  cases hi : introTail s with
  | none => exact absurd ((matchBody_intro_none hi) ▸ h) (by simp)
  | some v =>
    cases ha : afterTodo v with
    | none => exact absurd ((matchBody_todo_none hi ha) ▸ h) (by simp)
    | some t =>
      rw [matchBody_todo_some hi ha] at h
      rcases dotCap_shape _ _ h with ⟨hne, hpre, htr⟩
      refine ⟨hne, ?_, htr⟩
      rcases hpre with ⟨tail, htail⟩
      cases hb : b with
      | nil => exact absurd hb hne
      | cons c b2 =>
        have hhead : t.dropWhile isWs = c :: (b2 ++ tail) := by
          rw [← htail, hb]; rfl
        have hcw : isWs c = false := dropWhile_head_false hhead
        simp [List.dropWhile_cons, hcw]

theorem extract_some_shape {s b : List Char}
    (h : extract_todo_comment s = some b) :
    b ≠ [] ∧ b.dropWhile isWs = b ∧ trimRight b = b := by
  unfold extract_todo_comment at h
  rcases findSome?_inv h with ⟨a, _, hfa⟩
  exact matchBody_some_shape hfa

theorem processLines_mem (path : List Char)
    (wr : TodoRecord → Except IOErr Unit) :
    ∀ (ls : List (Except IOErr (List Char))) (n : Nat) (r : TodoRecord),
      r ∈ (processLines path n ls wr).1 →
      n ≤ r.line_number ∧ ∃ l, extract_todo_comment l = some r.comment_text := by
  intro ls
  induction ls with
  | nil => intro n r hr; exact absurd hr (by simp [processLines])
  | cons x rest ih =>
    intro n r hr
    cases x with
    | error e => exact absurd hr (by simp [processLines])
    | ok l =>
      cases hx : extract_todo_comment l with
      | none =>
        rw [show processLines path n (Except.ok l :: rest) wr
              = processLines path (n + 1) rest wr by simp [processLines, hx]] at hr
        rcases ih (n + 1) r hr with ⟨hle, hex⟩
        exact ⟨Nat.le_of_succ_le hle, hex⟩
      | some c =>
        cases hw : wr (TodoRecord.mk path n c) with
        | error e =>
          exact absurd hr (by simp [processLines, hx, hw])
        | ok u =>
          rw [show processLines path n (Except.ok l :: rest) wr
                = (TodoRecord.mk path n c :: (processLines path (n + 1) rest wr).1,
                   (processLines path (n + 1) rest wr).2) by
              simp [processLines, hx, hw]] at hr
          rcases List.mem_cons.mp hr with h1 | h2
          · refine ⟨by rw [h1], l, ?_⟩
            rw [h1]
            exact hx
          · rcases ih (n + 1) r h2 with ⟨hle, hex⟩
            exact ⟨Nat.le_of_succ_le hle, hex⟩

/-- C7: every record emitted by `process_file` satisfies the `TodoRecord`
data-model invariant: `line_number` is a positive (1-based) integer, and
`comment_text` is non-empty and has no leading or trailing whitespace
(left-trimming and right-trimming it change nothing). -/
theorem emitted_records_invariant (path : List Char)
    (openRes : Except IOErr (List (Except IOErr (List Char))))
    (wr : TodoRecord → Except IOErr Unit) (r : TodoRecord)
    (hr : r ∈ (process_file path openRes wr).1) :
    1 ≤ r.line_number ∧ r.comment_text ≠ []
      ∧ r.comment_text.dropWhile isWs = r.comment_text
      ∧ trimRight r.comment_text = r.comment_text := by
  cases openRes with
  | error e => exact absurd hr (by simp [process_file])
  | ok ls =>
    rcases processLines_mem path wr ls 1 r hr with ⟨hle, l, hl⟩
    rcases extract_some_shape hl with ⟨hne, hld, htr⟩
    exact ⟨hle, hne, hld, htr⟩

theorem emitted_records_invariant_witness :
    (TodoRecord.mk (String.toList "a.rs") 1 (String.toList "fix")
      ∈ (process_file (String.toList "a.rs")
          (Except.ok [Except.ok (String.toList "// TODO: fix")]) okSink).1)
    ∧ (1 ≤ (TodoRecord.mk (String.toList "a.rs") 1 (String.toList "fix")).line_number
       ∧ (TodoRecord.mk (String.toList "a.rs") 1 (String.toList "fix")).comment_text ≠ []
       ∧ (TodoRecord.mk (String.toList "a.rs") 1
            (String.toList "fix")).comment_text.dropWhile isWs
           = (TodoRecord.mk (String.toList "a.rs") 1 (String.toList "fix")).comment_text
       ∧ trimRight (TodoRecord.mk (String.toList "a.rs") 1
            (String.toList "fix")).comment_text
           = (TodoRecord.mk (String.toList "a.rs") 1 (String.toList "fix")).comment_text) :=
  ⟨by decide,
   emitted_records_invariant (String.toList "a.rs")
     (Except.ok [Except.ok (String.toList "// TODO: fix")]) okSink
     (TodoRecord.mk (String.toList "a.rs") 1 (String.toList "fix")) (by decide)⟩

/-! Embedding of `is_supported_file` (lib.rs lines 63-70) and
`FileExtension::from_str` (lib.rs lines 26-37).  A directory entry is
modelled by the two observations the Rust code makes of it:
`entry.path().is_file()` (a filesystem query, true for a regular file or
a symlink resolving to one) becomes the boolean field `isFile`, and
`Path::file_name()` of the entry's path (the final path component, absent
for paths such as `/` or `..`) becomes the field `fileName`.  The
`OsStr::to_str` conversion always succeeds in the char-list model. -/

structure FsEntry where
  fileName : Option (List Char)
  isFile : Bool

inductive FileExtension where
  | Rust
  | Python
  | Java
  | TypeScript
  | JavaScript
deriving DecidableEq

def FileExtension.from_str (ext : List Char) : Option FileExtension :=
  if ext = String.toList "rs" then some FileExtension.Rust
  else if ext = String.toList "py" then some FileExtension.Python
  else if ext = String.toList "java" then some FileExtension.Java
  else if ext = String.toList "ts" then some FileExtension.TypeScript
  else if ext = String.toList "js" then some FileExtension.JavaScript
  else none

/-- Embedding of Rust `Path::extension` applied to the file name: the
portion of the name after its last `.`, except that the name `..`, a name
without a `.`, and a name whose only `.` is its leading character (a
dotfile such as `.rs`) have no extension — std `split_file_at_dot`
searches for the last `.` strictly after the first byte. -/
def rustExtension (name : List Char) : Option (List Char) :=
  if name = ['.', '.'] then none
  else
    match name with
    | [] => none
    | _ :: rest =>
      if '.' ∈ rest then
        some ((rest.reverse.takeWhile (fun c => !(c == '.'))).reverse)
      else none

def is_supported_file (e : FsEntry) : Bool :=
  e.isFile
    && (match e.fileName with
        | none => false
        | some name =>
          match rustExtension name with
          | none => false
          | some ext => (FileExtension.from_str ext).isSome)

/-- Modelled from the claim's words (C4, spec section 4.2): true iff the
entry is a regular file and its filename extension — the substring after
the last `.` of the filename, compared case-sensitively — equals one of
`rs`, `py`, `java`, `ts`, `js`; a name containing no `.` has no
extension. -/
def claimSupported (e : FsEntry) : Bool :=
  e.isFile
    && (match e.fileName with
        | none => false
        | some name =>
          if '.' ∈ name then
            (FileExtension.from_str
              ((name.reverse.takeWhile (fun c => !(c == '.'))).reverse)).isSome
          else false)

/-- C4, counterexample: a regular file named `.rs` — the substring after
the last `.` of its name is `rs`, so the claim's extension rule calls it
supported, but `Path::extension` treats a dotfile's leading `.` as part
of the stem, so `is_supported_file` rejects it. -/
theorem supported_file_counterexample :
    is_supported_file (FsEntry.mk (some (String.toList ".rs")) true) = false
    ∧ claimSupported (FsEntry.mk (some (String.toList ".rs")) true) = true
    ∧ ¬ (is_supported_file (FsEntry.mk (some (String.toList ".rs")) true) = true
          ↔ claimSupported (FsEntry.mk (some (String.toList ".rs")) true) = true) := by
  decide

theorem from_str_isSome_iff (ext : List Char) :
    (FileExtension.from_str ext).isSome = true ↔
      (ext = String.toList "rs" ∨ ext = String.toList "py"
       ∨ ext = String.toList "java" ∨ ext = String.toList "ts"
       ∨ ext = String.toList "js") := by
  unfold FileExtension.from_str
  split_ifs <;> simp_all

/-- C4, amended: `is_supported_file` returns true iff the entry is a
regular file and its name has an extension in Rust's `Path::extension`
sense — the substring after the last `.` occurring after the name's
first character, so a dotfile like `.rs`, the name `..`, or a name with
no `.` has none — equal, case-sensitively, to one of `rs`, `py`, `java`,
`ts`, `js`; files with no extension or an unrecognized extension are not
supported. -/
theorem supported_file_iff (e : FsEntry) :
    is_supported_file e = true ↔
      (e.isFile = true ∧ ∃ name ext, e.fileName = some name
        ∧ rustExtension name = some ext
        ∧ (ext = String.toList "rs" ∨ ext = String.toList "py"
           ∨ ext = String.toList "java" ∨ ext = String.toList "ts"
           ∨ ext = String.toList "js")) := by
  obtain ⟨fn, isF⟩ := e
  cases fn with
  | none => simp [is_supported_file]
  | some name =>
    cases hre : rustExtension name with
    | none => simp [is_supported_file, hre]
    | some ext => simp [is_supported_file, hre, from_str_isSome_iff]

end TodoToCsv
